import Mathlib

/-!
# Verification of the GDC diffusion-matrix construction

Shallow embedding of the `gdc` function of `gdc_demo.ipynb` over the reals.
Each definition mirrors one line of the source, keeping the source's names:

    def gdc(A, alpha, eps):
        N = A.shape[0]
        A_loop = sp.eye(N) + A
        D_loop_vec = A_loop.sum(0).A1
        D_loop_vec_invsqrt = 1 / np.sqrt(D_loop_vec)
        D_loop_invsqrt = sp.diags(D_loop_vec_invsqrt)
        T_sym = D_loop_invsqrt @ A_loop @ D_loop_invsqrt
        S = alpha * sp.linalg.inv(sp.eye(N) - (1 - alpha) * T_sym)
        S_tilde = S.multiply(S >= eps)
        D_tilde_vec = S_tilde.sum(0).A1
        T_S = S_tilde / D_tilde_vec
        return T_S

Machine floats are modelled as real numbers; the float division `x / 0`
(which numpy turns into `inf`/`nan`) is modelled by real division, which in
Lean evaluates to `0`.  `A_loop.sum(0)` sums over axis 0, i.e. it produces
the vector of column sums; `S_tilde / D_tilde_vec` broadcasts over the last
axis, i.e. it divides entry `(i, j)` by `D_tilde_vec j`.
-/

namespace GDC

open Matrix

/-- `A_loop = sp.eye(N) + A`: the self-loop augmented adjacency matrix. -/
noncomputable def A_loop {n : ℕ} (A : Matrix (Fin n) (Fin n) ℝ) :
    Matrix (Fin n) (Fin n) ℝ :=
  1 + A

/-- `D_loop_vec = A_loop.sum(0).A1`: the vector of column sums of `A_loop`. -/
noncomputable def D_loop_vec {n : ℕ} (A : Matrix (Fin n) (Fin n) ℝ) (j : Fin n) : ℝ :=
  ∑ i, A_loop A i j

/-- `D_loop_vec_invsqrt = 1 / np.sqrt(D_loop_vec)`, elementwise. -/
noncomputable def D_loop_vec_invsqrt {n : ℕ} (A : Matrix (Fin n) (Fin n) ℝ) (j : Fin n) : ℝ :=
  1 / Real.sqrt (D_loop_vec A j)

/-- `D_loop_invsqrt = sp.diags(D_loop_vec_invsqrt)`. -/
noncomputable def D_loop_invsqrt {n : ℕ} (A : Matrix (Fin n) (Fin n) ℝ) :
    Matrix (Fin n) (Fin n) ℝ :=
  Matrix.diagonal (D_loop_vec_invsqrt A)

/-- `T_sym = D_loop_invsqrt @ A_loop @ D_loop_invsqrt`. -/
noncomputable def T_sym {n : ℕ} (A : Matrix (Fin n) (Fin n) ℝ) :
    Matrix (Fin n) (Fin n) ℝ :=
  D_loop_invsqrt A * A_loop A * D_loop_invsqrt A

/-- `S = alpha * sp.linalg.inv(sp.eye(N) - (1 - alpha) * T_sym)`:
the PPR diffusion matrix (`Matrix.inv` is Mathlib's nonsingular inverse). -/
noncomputable def S_mat {n : ℕ} (A : Matrix (Fin n) (Fin n) ℝ) (alpha : ℝ) :
    Matrix (Fin n) (Fin n) ℝ :=
  alpha • ((1 : Matrix (Fin n) (Fin n) ℝ) - (1 - alpha) • T_sym A)⁻¹

/-- `S_tilde = S.multiply(S >= eps)`: entrywise threshold sparsification.
An entry is kept exactly when `S i j >= eps`; all other entries become `0`. -/
noncomputable def S_tilde {n : ℕ} (A : Matrix (Fin n) (Fin n) ℝ) (alpha eps : ℝ) :
    Matrix (Fin n) (Fin n) ℝ :=
  Matrix.of fun i j => if S_mat A alpha i j ≥ eps then S_mat A alpha i j else 0

/-- `D_tilde_vec = S_tilde.sum(0).A1`: column sums of the sparsified matrix. -/
noncomputable def D_tilde_vec {n : ℕ} (A : Matrix (Fin n) (Fin n) ℝ) (alpha eps : ℝ)
    (j : Fin n) : ℝ :=
  ∑ i, S_tilde A alpha eps i j

/-- `T_S = S_tilde / D_tilde_vec`: divide entry `(i, j)` by the `j`-th column sum. -/
noncomputable def T_S {n : ℕ} (A : Matrix (Fin n) (Fin n) ℝ) (alpha eps : ℝ) :
    Matrix (Fin n) (Fin n) ℝ :=
  Matrix.of fun i j => S_tilde A alpha eps i j / D_tilde_vec A alpha eps j

/-- `gdc` returns `T_S`. -/
noncomputable def gdc {n : ℕ} (A : Matrix (Fin n) (Fin n) ℝ) (alpha eps : ℝ) :
    Matrix (Fin n) (Fin n) ℝ :=
  T_S A alpha eps

/-! ## The pipeline stages as standalone components

The spec describes the same computation as a pipeline of components
(Transition Builder, Diffusion Kernel, Sparsifier, Renormalizer); the two
generic stages are the Sparsifier and the Renormalizer, which act on an
arbitrary matrix. -/

/-- The Sparsifier in threshold mode: keep an entry exactly when it is `≥ eps`. -/
noncomputable def sparsifyThreshold {n : ℕ} (S : Matrix (Fin n) (Fin n) ℝ) (eps : ℝ) :
    Matrix (Fin n) (Fin n) ℝ :=
  Matrix.of fun i j => if S i j ≥ eps then S i j else 0

/-- The Renormalizer: divide every column by its own sum
(the code's `S_tilde / D_tilde_vec` applied to an arbitrary matrix). -/
noncomputable def renormalize {n : ℕ} (M : Matrix (Fin n) (Fin n) ℝ) :
    Matrix (Fin n) (Fin n) ℝ :=
  Matrix.of fun i j => M i j / ∑ k, M k j

/-! ## Spec-side definitions

The spec (section 4) describes the same pipeline in its own words; these
definitions follow the spec's words and are compared with the embedded code
in the refinement theorem for the pipeline.  The spec takes `D` to be "the
diagonal degree matrix of `A + I`", i.e. the degrees (row sums) of the
self-loop-augmented matrix. -/

/-- Spec: the degree of node `i` in `A + I`. -/
noncomputable def specDegree {n : ℕ} (A : Matrix (Fin n) (Fin n) ℝ) (i : Fin n) : ℝ :=
  ∑ j, (A + 1) i j

/-- Spec: `T = D^(-1/2) (A + I) D^(-1/2)`. -/
noncomputable def specTransition {n : ℕ} (A : Matrix (Fin n) (Fin n) ℝ) :
    Matrix (Fin n) (Fin n) ℝ :=
  Matrix.diagonal (fun i => (Real.sqrt (specDegree A i))⁻¹) * (A + 1) *
    Matrix.diagonal (fun i => (Real.sqrt (specDegree A i))⁻¹)

/-- Spec: the PPR closed form `S = alpha * (I - (1 - alpha) * T)⁻¹`. -/
noncomputable def specS {n : ℕ} (A : Matrix (Fin n) (Fin n) ℝ) (alpha : ℝ) :
    Matrix (Fin n) (Fin n) ℝ :=
  alpha • ((1 : Matrix (Fin n) (Fin n) ℝ) - (1 - alpha) • specTransition A)⁻¹

/-- Spec: threshold sparsification, "retain entry S[i,j] iff S[i,j] >= eps". -/
noncomputable def specSparsify {n : ℕ} (S : Matrix (Fin n) (Fin n) ℝ) (eps : ℝ) :
    Matrix (Fin n) (Fin n) ℝ :=
  Matrix.of fun i j => if S i j ≥ eps then S i j else 0

/-- Spec: column normalization, "compute per-column sums; divide each column
by its sum". -/
noncomputable def specColNormalize {n : ℕ} (M : Matrix (Fin n) (Fin n) ℝ) :
    Matrix (Fin n) (Fin n) ℝ :=
  Matrix.of fun i j => M i j / ∑ k, M k j

/-! ## Proof infrastructure: the row-normalized random-walk matrix

`T_sym` is similar, via conjugation by `D^(1/2)`, to the row-stochastic walk
matrix `Qrow = D⁻¹ A_loop` (for symmetric `A`); this is the vehicle for the
diagonal bound on the PPR matrix. -/

/-- The row-normalized walk matrix `D⁻¹ A_loop`. -/
noncomputable def Qrow {n : ℕ} (A : Matrix (Fin n) (Fin n) ℝ) :
    Matrix (Fin n) (Fin n) ℝ :=
  Matrix.of fun i j => A_loop A i j / D_loop_vec A i

/-- The diagonal matrix `D^(1/2)`. -/
noncomputable def sqrtDiag {n : ℕ} (A : Matrix (Fin n) (Fin n) ℝ) :
    Matrix (Fin n) (Fin n) ℝ :=
  Matrix.diagonal fun i => Real.sqrt (D_loop_vec A i)

/-! ## Concrete matrices used as witnesses and counterexamples -/

/-- A weighted single-edge graph on two nodes: `A_loop` has constant column
sum `4`, so all the intermediate quantities are rational. -/
noncomputable def Ac : Matrix (Fin 2) (Fin 2) ℝ := !![0, 3; 3, 0]

/-- A malformed one-node input with a negative entry, making the degree of
`A + I` zero. -/
noncomputable def Aneg : Matrix (Fin 1) (Fin 1) ℝ := !![-1]

/-- A one-node dense matrix with entry `1/2`, used to exercise the
sparsifier on its own. -/
noncomputable def Shalf : Matrix (Fin 1) (Fin 1) ℝ := !![1/2]

/-! ## Basic lemmas about the stages -/

theorem S_tilde_eq_sparsify {n : ℕ} (A : Matrix (Fin n) (Fin n) ℝ) (alpha eps : ℝ) :
    S_tilde A alpha eps = sparsifyThreshold (S_mat A alpha) eps :=
  rfl

theorem gdc_eq_renormalize {n : ℕ} (A : Matrix (Fin n) (Fin n) ℝ) (alpha eps : ℝ) :
    gdc A alpha eps = renormalize (S_tilde A alpha eps) :=
  rfl

/-! ## Entrywise descriptions of the stages -/

theorem A_loop_apply {n : ℕ} (A : Matrix (Fin n) (Fin n) ℝ) (i j : Fin n) :
    A_loop A i j = (if i = j then 1 else 0) + A i j := by
  simp [A_loop, Matrix.one_apply]

theorem T_sym_apply {n : ℕ} (A : Matrix (Fin n) (Fin n) ℝ) (i j : Fin n) :
    T_sym A i j = D_loop_vec_invsqrt A i * A_loop A i j * D_loop_vec_invsqrt A j := by
  simp [T_sym, D_loop_invsqrt, Matrix.diagonal_mul, Matrix.mul_diagonal]

theorem S_tilde_apply {n : ℕ} (A : Matrix (Fin n) (Fin n) ℝ) (alpha eps : ℝ) (i j : Fin n) :
    S_tilde A alpha eps i j =
      if S_mat A alpha i j ≥ eps then S_mat A alpha i j else 0 :=
  rfl

theorem gdc_apply {n : ℕ} (A : Matrix (Fin n) (Fin n) ℝ) (alpha eps : ℝ) (i j : Fin n) :
    gdc A alpha eps i j = S_tilde A alpha eps i j / D_tilde_vec A alpha eps j :=
  rfl

/-- C4: threshold sparsification keeps an entry exactly when it is `≥ eps`
(the bound is inclusive), and every non-retained entry is exactly zero. -/
theorem sparsify_threshold_inclusive {n : ℕ} (S : Matrix (Fin n) (Fin n) ℝ)
    (eps : ℝ) (i j : Fin n) :
    (eps ≤ S i j → sparsifyThreshold S eps i j = S i j) ∧
      (S i j < eps → sparsifyThreshold S eps i j = 0) ∧
      (sparsifyThreshold S eps i j ≠ 0 →
        eps ≤ S i j ∧ sparsifyThreshold S eps i j = S i j) := by
  refine ⟨fun h => if_pos h, fun h => if_neg (not_le.mpr h), fun h => ?_⟩
  by_cases hc : eps ≤ S i j
  · exact ⟨hc, if_pos hc⟩
  · exact absurd (if_neg hc) h

/-- Witness for C4: at `eps = 1/2` the entry `1/2` is retained (ties at
exactly `eps` are kept), and at `eps = 3/4` it becomes exactly zero. -/
theorem sparsify_threshold_inclusive_witness :
    sparsifyThreshold Shalf (1/2) 0 0 = Shalf 0 0 ∧
      sparsifyThreshold Shalf (3/4) 0 0 = 0 :=
  ⟨(sparsify_threshold_inclusive Shalf (1/2) 0 0).1 (by norm_num [Shalf]),
   (sparsify_threshold_inclusive Shalf (3/4) 0 0).2.1 (by norm_num [Shalf])⟩

/-- C8: the Renormalizer is idempotent: after one application every column
sums to `1` (or stays `0`, with the division-by-zero-as-zero convention),
so a second application changes nothing. -/
theorem renormalizer_idempotent {n : ℕ} (M : Matrix (Fin n) (Fin n) ℝ) :
    renormalize (renormalize M) = renormalize M := by
  ext i j
  show renormalize M i j / (∑ k, renormalize M k j) = renormalize M i j
  by_cases hs : (∑ k, M k j) = 0
  · have h0 : ∀ k, renormalize M k j = 0 := fun k => by
      show M k j / (∑ k, M k j) = 0
      rw [hs, div_zero]
    simp [h0]
  · have hsum : (∑ k, renormalize M k j) = 1 := by
      show (∑ k, M k j / (∑ k, M k j)) = 1
      rw [← Finset.sum_div, div_self hs]
    rw [hsum, div_one]

/-- C2 (amended): the code has no zero-column fallback.  When a column of
`S_tilde` sums to `0`, the renormalization divides that column by zero, and
(with real division-by-zero evaluating to `0`; numpy produces NaN) the whole
output column is zero — the diagonal is not set to `1`. -/
theorem gdc_zero_column_all_zero {n : ℕ} (A : Matrix (Fin n) (Fin n) ℝ)
    (alpha eps : ℝ) (j : Fin n) (h : D_tilde_vec A alpha eps j = 0) :
    ∀ i, gdc A alpha eps i j = 0 := by
  intro i
  show S_tilde A alpha eps i j / D_tilde_vec A alpha eps j = 0
  rw [h, div_zero]

/-- C3 (amended): a column of the output sums to `1` exactly when its
sparsified column sum is nonzero; fully sparsified columns are not rescued. -/
theorem gdc_col_sum_one {n : ℕ} (A : Matrix (Fin n) (Fin n) ℝ)
    (alpha eps : ℝ) (j : Fin n) (h : D_tilde_vec A alpha eps j ≠ 0) :
    (∑ i, gdc A alpha eps i j) = 1 := by
  show (∑ i, S_tilde A alpha eps i j / D_tilde_vec A alpha eps j) = 1
  rw [← Finset.sum_div]
  exact div_self h

/-- C5 (amended): with `alpha = 1` the PPR diffusion matrix is the identity
matrix (immediate teleport), not the transition operator. -/
theorem ppr_alpha_one_identity {n : ℕ} (A : Matrix (Fin n) (Fin n) ℝ) :
    S_mat A 1 = 1 := by
  show (1 : ℝ) • ((1 : Matrix (Fin n) (Fin n) ℝ) - (1 - 1) • T_sym A)⁻¹ = 1
  rw [sub_self, zero_smul, sub_zero, inv_one, one_smul]

/-- C6 (amended): the Transition Builder performs no zero-degree check.  A
zero degree flows straight into `1 / sqrt(d)` (with the embedding's
division-by-zero-as-zero convention the factor is `0`; numpy produces inf)
and the corresponding row and column of `T_sym` are computed as zero. -/
theorem zero_degree_silently_continues {n : ℕ} (A : Matrix (Fin n) (Fin n) ℝ)
    (j : Fin n) (h : D_loop_vec A j = 0) :
    (∀ i, T_sym A i j = 0) ∧ (∀ i, T_sym A j i = 0) := by
  have hz : D_loop_vec_invsqrt A j = 0 := by
    show 1 / Real.sqrt (D_loop_vec A j) = 0
    rw [h, Real.sqrt_zero, div_zero]
  exact ⟨fun i => by rw [T_sym_apply, hz, mul_zero],
    fun i => by rw [T_sym_apply, hz, zero_mul, zero_mul]⟩

/-- C10: for a column with nonzero sparsified sum, renormalization preserves
the zero/nonzero pattern and rescales all entries by the same column sum. -/
theorem renormalize_preserves_pattern {n : ℕ} (A : Matrix (Fin n) (Fin n) ℝ)
    (alpha eps : ℝ) (j : Fin n) (h : 0 < D_tilde_vec A alpha eps j) :
    ∀ i, (gdc A alpha eps i j = 0 ↔ S_tilde A alpha eps i j = 0) ∧
      gdc A alpha eps i j * D_tilde_vec A alpha eps j = S_tilde A alpha eps i j := by
  intro i
  have hne : D_tilde_vec A alpha eps j ≠ 0 := ne_of_gt h
  refine ⟨⟨fun h0 => ?_, fun h0 => ?_⟩, ?_⟩
  · rcases div_eq_zero_iff.mp h0 with h1 | h1
    · exact h1
    · exact absurd h1 hne
  · show S_tilde A alpha eps i j / D_tilde_vec A alpha eps j = 0
    rw [h0, zero_div]
  · show S_tilde A alpha eps i j / D_tilde_vec A alpha eps j * D_tilde_vec A alpha eps j
      = S_tilde A alpha eps i j
    rw [div_mul_cancel₀ _ hne]

/-! ## Concrete evaluation of the pipeline on `Ac` -/

theorem A_loop_Ac : A_loop Ac = !![1, 3; 3, 1] := by
  ext i j
  fin_cases i <;> fin_cases j <;>
    simp [A_loop, Ac, Matrix.one_apply]

theorem D_loop_vec_Ac (j : Fin 2) : D_loop_vec Ac j = 4 := by
  fin_cases j <;>
    simp [D_loop_vec, Fin.sum_univ_two, A_loop_Ac] <;> norm_num

theorem sqrt_four : Real.sqrt 4 = 2 := by
  rw [show (4 : ℝ) = 2 ^ 2 by norm_num, Real.sqrt_sq (by norm_num : (0 : ℝ) ≤ 2)]

theorem D_loop_vec_invsqrt_Ac (j : Fin 2) : D_loop_vec_invsqrt Ac j = 1 / 2 := by
  show 1 / Real.sqrt (D_loop_vec Ac j) = 1 / 2
  rw [D_loop_vec_Ac, sqrt_four]

theorem T_sym_Ac : T_sym Ac = !![1/4, 3/4; 3/4, 1/4] := by
  ext i j
  rw [T_sym_apply, D_loop_vec_invsqrt_Ac, D_loop_vec_invsqrt_Ac, A_loop_Ac]
  fin_cases i <;> fin_cases j <;> norm_num

theorem M_half_Ac :
    (1 : Matrix (Fin 2) (Fin 2) ℝ) - (1 - 1/2 : ℝ) • T_sym Ac
      = !![7/8, -(3/8); -(3/8), 7/8] := by
  rw [T_sym_Ac]
  ext i j
  fin_cases i <;> fin_cases j <;>
    simp [Matrix.sub_apply, Matrix.smul_apply, Matrix.one_apply] <;> norm_num

theorem M_half_Ac_inv :
    ((1 : Matrix (Fin 2) (Fin 2) ℝ) - (1 - 1/2 : ℝ) • T_sym Ac)⁻¹
      = !![7/5, 3/5; 3/5, 7/5] := by
  rw [M_half_Ac]
  apply Matrix.inv_eq_right_inv
  ext i j
  fin_cases i <;> fin_cases j <;>
    simp [Matrix.mul_apply, Fin.sum_univ_two, Matrix.one_apply] <;> norm_num

theorem S_mat_Ac : S_mat Ac (1/2) = !![7/10, 3/10; 3/10, 7/10] := by
  show (1/2 : ℝ) • ((1 : Matrix (Fin 2) (Fin 2) ℝ) - (1 - 1/2) • T_sym Ac)⁻¹ = _
  rw [M_half_Ac_inv]
  ext i j
  fin_cases i <;> fin_cases j <;> simp [Matrix.smul_apply] <;> norm_num

theorem S_tilde_Ac_big_eps (i j : Fin 2) : S_tilde Ac (1/2) (9/10) i j = 0 := by
  rw [S_tilde_apply, S_mat_Ac]
  fin_cases i <;> fin_cases j <;> norm_num

theorem D_tilde_vec_Ac_big_eps (j : Fin 2) : D_tilde_vec Ac (1/2) (9/10) j = 0 := by
  show (∑ i, S_tilde Ac (1/2) (9/10) i j) = 0
  rw [Fin.sum_univ_two, S_tilde_Ac_big_eps, S_tilde_Ac_big_eps, add_zero]

theorem S_tilde_Ac_small_eps : S_tilde Ac (1/2) (1/10) = !![7/10, 3/10; 3/10, 7/10] := by
  ext i j
  rw [S_tilde_apply, S_mat_Ac]
  fin_cases i <;> fin_cases j <;> norm_num

theorem D_tilde_vec_Ac_small_eps (j : Fin 2) : D_tilde_vec Ac (1/2) (1/10) j = 1 := by
  show (∑ i, S_tilde Ac (1/2) (1/10) i j) = 1
  rw [Fin.sum_univ_two, S_tilde_Ac_small_eps]
  fin_cases j <;> norm_num

theorem D_loop_vec_Aneg : D_loop_vec Aneg 0 = 0 := by
  simp [D_loop_vec, A_loop, Aneg, Fin.sum_univ_one, Matrix.one_apply]

/-! ## Counterexamples and witnesses for the renormalization edge cases -/

/-- Counterexample for C2: on `Ac` with `alpha = 1/2`, `eps = 9/10` every
diffusion entry is below the threshold, so column `0` of `S_tilde` sums to
`0`; the output's diagonal entry is not set to `1` and the column does not
sum to `1` — there is no self-loop fallback in the code. -/
theorem no_zero_column_fallback_ce :
    D_tilde_vec Ac (1/2) (9/10) 0 = 0 ∧
      gdc Ac (1/2) (9/10) 0 0 ≠ 1 ∧
      (∑ i, gdc Ac (1/2) (9/10) i 0) ≠ 1 := by
  have hd := D_tilde_vec_Ac_big_eps 0
  have hg : ∀ i, gdc Ac (1/2) (9/10) i 0 = 0 := fun i => by
    rw [gdc_apply, hd, div_zero]
  refine ⟨hd, ?_, ?_⟩
  · rw [hg 0]; norm_num
  · rw [Fin.sum_univ_two, hg 0, hg 1]; norm_num

/-- Witness for the amended C2 at the same input. -/
theorem gdc_zero_column_all_zero_witness :
    D_tilde_vec Ac (1/2) (9/10) 0 = 0 ∧ (∀ i, gdc Ac (1/2) (9/10) i 0 = 0) :=
  ⟨D_tilde_vec_Ac_big_eps 0,
    gdc_zero_column_all_zero Ac (1/2) (9/10) 0 (D_tilde_vec_Ac_big_eps 0)⟩

/-- Counterexample for C3: on the valid input `Ac` with the valid
configuration `alpha = 1/2`, `eps = 9/10`, column `0` of the output sums to
`0`, which misses `1` by far more than the `1e-6` tolerance. -/
theorem column_stochastic_ce :
    1/1000000 < |(∑ i, gdc Ac (1/2) (9/10) i 0) - 1| := by
  have hd := D_tilde_vec_Ac_big_eps 0
  have hg : ∀ i, gdc Ac (1/2) (9/10) i 0 = 0 := fun i => by
    rw [gdc_apply, hd, div_zero]
  rw [Fin.sum_univ_two, hg 0, hg 1,
    show (0 : ℝ) + 0 - 1 = -1 by norm_num, abs_neg, abs_one]
  norm_num

/-- Witness for the amended C3 at `eps = 1/10`, where no entry is sparsified
away. -/
theorem gdc_col_sum_one_witness :
    D_tilde_vec Ac (1/2) (1/10) 0 ≠ 0 ∧ (∑ i, gdc Ac (1/2) (1/10) i 0) = 1 := by
  have h : D_tilde_vec Ac (1/2) (1/10) 0 ≠ 0 := by
    rw [D_tilde_vec_Ac_small_eps]; norm_num
  exact ⟨h, gdc_col_sum_one Ac (1/2) (1/10) 0 h⟩

/-- Witness for C10 at `Ac`, `alpha = 1/2`, `eps = 1/10`, column `0`. -/
theorem renormalize_preserves_pattern_witness :
    0 < D_tilde_vec Ac (1/2) (1/10) 0 ∧
      ∀ i, (gdc Ac (1/2) (1/10) i 0 = 0 ↔ S_tilde Ac (1/2) (1/10) i 0 = 0) ∧
        gdc Ac (1/2) (1/10) i 0 * D_tilde_vec Ac (1/2) (1/10) 0
          = S_tilde Ac (1/2) (1/10) i 0 := by
  have h : 0 < D_tilde_vec Ac (1/2) (1/10) 0 := by
    rw [D_tilde_vec_Ac_small_eps]; norm_num
  exact ⟨h, renormalize_preserves_pattern Ac (1/2) (1/10) 0 h⟩

/-- Counterexample for C5: on `Ac` the PPR matrix at `alpha = 1` is the
identity, while the transition operator has off-diagonal entry `3/4`. -/
theorem ppr_alpha_one_ce : S_mat Ac 1 ≠ T_sym Ac := by
  intro hEq
  have hone : S_mat Ac 1 = 1 := by
    show (1 : ℝ) • ((1 : Matrix (Fin 2) (Fin 2) ℝ) - (1 - 1 : ℝ) • T_sym Ac)⁻¹ = 1
    rw [sub_self, zero_smul, sub_zero, inv_one, one_smul]
  have h1 : S_mat Ac 1 0 1 = 0 := by
    rw [hone, Matrix.one_apply]
    norm_num
  rw [hEq, T_sym_Ac] at h1
  simp at h1

/-- Counterexample for C6: on the malformed input `Aneg = [[-1]]` the degree
of `A + I` is `0`, yet the Transition Builder computes a definite matrix and
the whole pipeline runs to completion and returns a result — nothing fails. -/
theorem zero_degree_no_error_ce :
    D_loop_vec Aneg 0 = 0 ∧ T_sym Aneg = 0 ∧ gdc Aneg (1/2) (1/4) = !![1] := by
  have hd := D_loop_vec_Aneg
  have hz : D_loop_vec_invsqrt Aneg 0 = 0 := by
    show 1 / Real.sqrt (D_loop_vec Aneg 0) = 0
    rw [hd, Real.sqrt_zero, div_zero]
  have hT : T_sym Aneg = 0 := by
    ext i j
    obtain rfl : i = 0 := Subsingleton.elim i 0
    obtain rfl : j = 0 := Subsingleton.elim j 0
    rw [T_sym_apply, hz, mul_zero, Matrix.zero_apply]
  have hS : S_mat Aneg (1/2) = !![1/2] := by
    show (1/2 : ℝ) • ((1 : Matrix (Fin 1) (Fin 1) ℝ) - (1 - 1/2 : ℝ) • T_sym Aneg)⁻¹ = _
    rw [hT, smul_zero, sub_zero, inv_one]
    ext i j
    obtain rfl : i = 0 := Subsingleton.elim i 0
    obtain rfl : j = 0 := Subsingleton.elim j 0
    simp
  have hSt : S_tilde Aneg (1/2) (1/4) 0 0 = 1/2 := by
    rw [S_tilde_apply, hS]
    norm_num
  have hD : D_tilde_vec Aneg (1/2) (1/4) 0 = 1/2 := by
    show (∑ i, S_tilde Aneg (1/2) (1/4) i 0) = 1/2
    rw [Fin.sum_univ_one, hSt]
  refine ⟨hd, hT, ?_⟩
  ext i j
  obtain rfl : i = 0 := Subsingleton.elim i 0
  obtain rfl : j = 0 := Subsingleton.elim j 0
  rw [gdc_apply, hSt, hD]
  norm_num

/-- Witness for the amended C6 at `Aneg`. -/
theorem zero_degree_silently_continues_witness :
    D_loop_vec Aneg 0 = 0 ∧
      ((∀ i, T_sym Aneg i 0 = 0) ∧ (∀ i, T_sym Aneg 0 i = 0)) :=
  ⟨D_loop_vec_Aneg, zero_degree_silently_continues Aneg 0 D_loop_vec_Aneg⟩

/-! ## Positivity facts about the degrees -/

theorem A_loop_nonneg {n : ℕ} (A : Matrix (Fin n) (Fin n) ℝ)
    (hpos : ∀ i j, 0 ≤ A i j) (i j : Fin n) : 0 ≤ A_loop A i j := by
  rw [A_loop_apply]
  by_cases hij : i = j <;> simp [hij] <;> linarith [hpos i j, hpos j j]

theorem one_le_D_loop {n : ℕ} (A : Matrix (Fin n) (Fin n) ℝ)
    (hpos : ∀ i j, 0 ≤ A i j) (i : Fin n) : 1 ≤ D_loop_vec A i := by
  have h1 : A_loop A i i ≤ ∑ k, A_loop A k i :=
    Finset.single_le_sum (fun k _ => A_loop_nonneg A hpos k i) (Finset.mem_univ i)
  have h2 : 1 ≤ A_loop A i i := by
    rw [A_loop_apply, if_pos rfl]
    linarith [hpos i i]
  exact le_trans h2 h1

theorem D_loop_pos {n : ℕ} (A : Matrix (Fin n) (Fin n) ℝ)
    (hpos : ∀ i j, 0 ≤ A i j) (i : Fin n) : 0 < D_loop_vec A i :=
  lt_of_lt_of_le one_pos (one_le_D_loop A hpos i)

theorem invsqrt_pos {n : ℕ} (A : Matrix (Fin n) (Fin n) ℝ)
    (hpos : ∀ i j, 0 ≤ A i j) (i : Fin n) : 0 < D_loop_vec_invsqrt A i := by
  show 0 < 1 / Real.sqrt (D_loop_vec A i)
  exact div_pos one_pos (Real.sqrt_pos.mpr (D_loop_pos A hpos i))

theorem A_loop_symm_apply {n : ℕ} {A : Matrix (Fin n) (Fin n) ℝ}
    (hA : A.IsSymm) (i j : Fin n) : A_loop A j i = A_loop A i j := by
  by_cases h : i = j
  · subst h; rfl
  · rw [A_loop_apply, A_loop_apply, if_neg h, if_neg (fun hh : j = i => h hh.symm),
      hA.apply i j]

/-- C7: for non-negative `A`, the Transition Builder output `T_sym` is
symmetric if and only if `A` is symmetric, and every diagonal entry of
`A + I` is at least `1`. -/
theorem transition_symm_iff_diag {n : ℕ} (A : Matrix (Fin n) (Fin n) ℝ)
    (hpos : ∀ i j, 0 ≤ A i j) :
    ((T_sym A).IsSymm ↔ A.IsSymm) ∧ ∀ i, 1 ≤ A_loop A i i := by
  refine ⟨⟨fun hT => ?_, fun hA => ?_⟩, fun i => ?_⟩
  · show Aᵀ = A
    ext i j
    rw [Matrix.transpose_apply]
    have h := hT.apply i j
    rw [T_sym_apply, T_sym_apply] at h
    have hi := invsqrt_pos A hpos i
    have hj := invsqrt_pos A hpos j
    have h' : A_loop A j i * (D_loop_vec_invsqrt A i * D_loop_vec_invsqrt A j)
        = A_loop A i j * (D_loop_vec_invsqrt A i * D_loop_vec_invsqrt A j) := by
      linear_combination h
    have hL := mul_right_cancel₀ (ne_of_gt (mul_pos hi hj)) h'
    rw [A_loop_apply, A_loop_apply] at hL
    by_cases hij : i = j
    · subst hij; rfl
    · rw [if_neg (fun hh : j = i => hij hh.symm), if_neg hij] at hL
      simpa using hL
  · exact Matrix.IsSymm.ext fun i j => by
      rw [T_sym_apply, T_sym_apply, A_loop_symm_apply hA i j]
      ring
  · rw [A_loop_apply, if_pos rfl]
    linarith [hpos i i]

/-- Witness for C7 at the non-negative matrix `Ac`. -/
theorem transition_symm_iff_diag_witness :
    (∀ i j, (0 : ℝ) ≤ Ac i j) ∧
      (((T_sym Ac).IsSymm ↔ Ac.IsSymm) ∧ ∀ i, 1 ≤ A_loop Ac i i) := by
  have hpos : ∀ i j, (0 : ℝ) ≤ Ac i j := by
    intro i j
    fin_cases i <;> fin_cases j <;> norm_num [Ac]
  exact ⟨hpos, transition_symm_iff_diag Ac hpos⟩

/-! ## Refinement of the code against the spec-side pipeline -/

theorem specDegree_eq {n : ℕ} (A : Matrix (Fin n) (Fin n) ℝ) (hA : A.IsSymm)
    (i : Fin n) : specDegree A i = D_loop_vec A i := by
  unfold specDegree D_loop_vec
  apply Finset.sum_congr rfl
  intro k _
  rw [Matrix.add_apply, Matrix.one_apply, A_loop_apply, ← hA.apply i k]
  by_cases h : i = k
  · subst h; ring
  · rw [if_neg h, if_neg (fun hh : k = i => h hh.symm)]; ring

theorem specTransition_eq {n : ℕ} (A : Matrix (Fin n) (Fin n) ℝ) (hA : A.IsSymm) :
    specTransition A = T_sym A := by
  have hfun : (fun i => (Real.sqrt (specDegree A i))⁻¹) = D_loop_vec_invsqrt A := by
    funext i
    rw [specDegree_eq A hA i]
    show (Real.sqrt (D_loop_vec A i))⁻¹ = 1 / Real.sqrt (D_loop_vec A i)
    rw [one_div]
  have hdiag : Matrix.diagonal (fun i => (Real.sqrt (specDegree A i))⁻¹)
      = D_loop_invsqrt A := by
    unfold D_loop_invsqrt
    rw [hfun]
  unfold specTransition T_sym
  rw [hdiag, show A + 1 = A_loop A from by unfold A_loop; rw [add_comm]]

theorem specS_eq {n : ℕ} (A : Matrix (Fin n) (Fin n) ℝ) (alpha : ℝ) (hA : A.IsSymm) :
    specS A alpha = S_mat A alpha := by
  unfold specS S_mat
  rw [specTransition_eq A hA]

/-- C1: for symmetric `A` (in particular for every symmetric, non-negative
adjacency matrix and any `alpha`), `gdc` returns exactly the
column-normalized, threshold-sparsified version of the PPR closed form
`S = alpha * (I - (1 - alpha) * T)⁻¹` built on
`T = D^(-1/2) (A + I) D^(-1/2)` with `D` the degree matrix of `A + I`. -/
theorem gdc_eq_spec_pipeline {n : ℕ} (A : Matrix (Fin n) (Fin n) ℝ)
    (alpha eps : ℝ) (hA : A.IsSymm) :
    gdc A alpha eps = specColNormalize (specSparsify (specS A alpha) eps) := by
  rw [specS_eq A alpha hA]
  rfl

theorem Ac_isSymm : Ac.IsSymm := by
  show Acᵀ = Ac
  ext i j
  fin_cases i <;> fin_cases j <;> simp [Ac]

/-- Witness for C1 at the symmetric matrix `Ac`. -/
theorem gdc_eq_spec_pipeline_witness :
    Ac.IsSymm ∧ gdc Ac (1/2) (1/10)
      = specColNormalize (specSparsify (specS Ac (1/2)) (1/10)) :=
  ⟨Ac_isSymm, gdc_eq_spec_pipeline Ac (1/2) (1/10) Ac_isSymm⟩

/-! ## The walk matrix: `I - c * Qrow` is invertible with non-negative inverse

For symmetric non-negative `A` the matrix `Qrow = D⁻¹ A_loop` is
row-stochastic, so for `0 ≤ c < 1` the matrix `I - c * Qrow` satisfies a
discrete maximum principle: its kernel is trivial and its inverse has
non-negative entries with diagonal at least `1`. -/

theorem Qrow_apply {n : ℕ} (A : Matrix (Fin n) (Fin n) ℝ) (i j : Fin n) :
    Qrow A i j = A_loop A i j / D_loop_vec A i :=
  rfl

theorem Qrow_nonneg {n : ℕ} (A : Matrix (Fin n) (Fin n) ℝ)
    (hpos : ∀ i j, 0 ≤ A i j) (i j : Fin n) : 0 ≤ Qrow A i j :=
  div_nonneg (A_loop_nonneg A hpos i j) (le_of_lt (D_loop_pos A hpos i))

theorem Qrow_row_sum {n : ℕ} (A : Matrix (Fin n) (Fin n) ℝ) (hA : A.IsSymm)
    (hpos : ∀ i j, 0 ≤ A i j) (i : Fin n) : ∑ j, Qrow A i j = 1 := by
  have hrow : ∑ j, A_loop A i j = D_loop_vec A i :=
    Finset.sum_congr rfl fun j _ => A_loop_symm_apply hA j i
  calc ∑ j, Qrow A i j = (∑ j, A_loop A i j) / D_loop_vec A i := by
        simp only [Qrow_apply]
        rw [← Finset.sum_div]
    _ = 1 := by rw [hrow, div_self (ne_of_gt (D_loop_pos A hpos i))]

theorem one_sub_smul_Qrow_mulVec {n : ℕ} (A : Matrix (Fin n) (Fin n) ℝ) (c : ℝ)
    (v : Fin n → ℝ) (i : Fin n) :
    ((((1 : Matrix (Fin n) (Fin n) ℝ) - c • Qrow A)) *ᵥ v) i
      = v i - c * ∑ k, Qrow A i k * v k := by
  rw [Matrix.sub_mulVec, Matrix.one_mulVec, Matrix.smul_mulVec_assoc, Pi.sub_apply,
    Pi.smul_apply, smul_eq_mul]
  congr 1

theorem one_sub_smul_Qrow_mul_entry {n : ℕ} (A : Matrix (Fin n) (Fin n) ℝ) (c : ℝ)
    (B : Matrix (Fin n) (Fin n) ℝ) (i j : Fin n) :
    (((1 : Matrix (Fin n) (Fin n) ℝ) - c • Qrow A) * B) i j
      = B i j - c * ∑ k, Qrow A i k * B k j := by
  rw [Matrix.sub_mul, Matrix.one_mul, Matrix.smul_mul, Matrix.sub_apply,
    Matrix.smul_apply, Matrix.mul_apply, smul_eq_mul]

theorem walk_kernel_trivial {n : ℕ} (A : Matrix (Fin n) (Fin n) ℝ) (hA : A.IsSymm)
    (hpos : ∀ i j, 0 ≤ A i j) {c : ℝ} (hc0 : 0 ≤ c) (hc1 : c < 1)
    (v : Fin n → ℝ)
    (hv : (((1 : Matrix (Fin n) (Fin n) ℝ) - c • Qrow A)) *ᵥ v = 0) : v = 0 := by
  by_contra hne
  have hex : ∃ i, v i ≠ 0 := by
    by_contra hall
    push_neg at hall
    exact hne (funext hall)
  obtain ⟨i₁, hi₁⟩ := hex
  obtain ⟨i₀, -, hmax⟩ :=
    Finset.exists_max_image Finset.univ (fun i => |v i|) ⟨i₁, Finset.mem_univ i₁⟩
  have heq : v i₀ = c * ∑ k, Qrow A i₀ k * v k := by
    have h := congrFun hv i₀
    rw [one_sub_smul_Qrow_mulVec, Pi.zero_apply, sub_eq_zero] at h
    exact h
  have habs : |v i₀| ≤ c * |v i₀| := by
    calc |v i₀| = c * |∑ k, Qrow A i₀ k * v k| := by
          rw [heq, abs_mul, abs_of_nonneg hc0]
      _ ≤ c * ∑ k, Qrow A i₀ k * |v k| := by
          apply mul_le_mul_of_nonneg_left _ hc0
          calc |∑ k, Qrow A i₀ k * v k| ≤ ∑ k, |Qrow A i₀ k * v k| :=
                Finset.abs_sum_le_sum_abs _ _
            _ = ∑ k, Qrow A i₀ k * |v k| := Finset.sum_congr rfl fun k _ => by
                rw [abs_mul, abs_of_nonneg (Qrow_nonneg A hpos i₀ k)]
      _ ≤ c * ∑ k, Qrow A i₀ k * |v i₀| := by
          apply mul_le_mul_of_nonneg_left _ hc0
          exact Finset.sum_le_sum fun k _ =>
            mul_le_mul_of_nonneg_left (hmax k (Finset.mem_univ k)) (Qrow_nonneg A hpos i₀ k)
      _ = c * |v i₀| := by
          rw [← Finset.sum_mul, Qrow_row_sum A hA hpos i₀, one_mul]
  have h0 : |v i₀| ≤ 0 := by nlinarith [abs_nonneg (v i₀)]
  exact hi₁ (abs_nonpos_iff.mp (le_trans (hmax i₁ (Finset.mem_univ i₁)) h0))

theorem walk_det_ne_zero {n : ℕ} (A : Matrix (Fin n) (Fin n) ℝ) (hA : A.IsSymm)
    (hpos : ∀ i j, 0 ≤ A i j) {c : ℝ} (hc0 : 0 ≤ c) (hc1 : c < 1) :
    ((1 : Matrix (Fin n) (Fin n) ℝ) - c • Qrow A).det ≠ 0 := by
  intro hdet
  obtain ⟨v, hv0, hv⟩ := Matrix.exists_mulVec_eq_zero_iff.mpr hdet
  exact hv0 (walk_kernel_trivial A hA hpos hc0 hc1 v hv)

theorem walk_inv_eqn {n : ℕ} (A : Matrix (Fin n) (Fin n) ℝ) (hA : A.IsSymm)
    (hpos : ∀ i j, 0 ≤ A i j) {c : ℝ} (hc0 : 0 ≤ c) (hc1 : c < 1) (i j : Fin n) :
    ((1 : Matrix (Fin n) (Fin n) ℝ) - c • Qrow A)⁻¹ i j
      = (if i = j then 1 else 0)
        + c * ∑ k, Qrow A i k * ((1 : Matrix (Fin n) (Fin n) ℝ) - c • Qrow A)⁻¹ k j := by
  have hmul : ((1 : Matrix (Fin n) (Fin n) ℝ) - c • Qrow A)
      * ((1 : Matrix (Fin n) (Fin n) ℝ) - c • Qrow A)⁻¹ = 1 :=
    Matrix.mul_nonsing_inv _ (isUnit_iff_ne_zero.mpr (walk_det_ne_zero A hA hpos hc0 hc1))
  have h := congrFun (congrFun hmul i) j
  rw [one_sub_smul_Qrow_mul_entry, Matrix.one_apply] at h
  linarith [h]

theorem walk_inv_nonneg {n : ℕ} (A : Matrix (Fin n) (Fin n) ℝ) (hA : A.IsSymm)
    (hpos : ∀ i j, 0 ≤ A i j) {c : ℝ} (hc0 : 0 ≤ c) (hc1 : c < 1) (i j : Fin n) :
    0 ≤ ((1 : Matrix (Fin n) (Fin n) ℝ) - c • Qrow A)⁻¹ i j := by
  obtain ⟨i₀, -, hmin⟩ :=
    Finset.exists_min_image Finset.univ
      (fun k => ((1 : Matrix (Fin n) (Fin n) ℝ) - c • Qrow A)⁻¹ k j)
      ⟨i, Finset.mem_univ i⟩
  have key : 0 ≤ ((1 : Matrix (Fin n) (Fin n) ℝ) - c • Qrow A)⁻¹ i₀ j := by
    have heq := walk_inv_eqn A hA hpos hc0 hc1 i₀ j
    have hge : ∑ k, Qrow A i₀ k * ((1 : Matrix (Fin n) (Fin n) ℝ) - c • Qrow A)⁻¹ i₀ j
        ≤ ∑ k, Qrow A i₀ k * ((1 : Matrix (Fin n) (Fin n) ℝ) - c • Qrow A)⁻¹ k j :=
      Finset.sum_le_sum fun k _ =>
        mul_le_mul_of_nonneg_left (hmin k (Finset.mem_univ k)) (Qrow_nonneg A hpos i₀ k)
    have hsum : ∑ k, Qrow A i₀ k * ((1 : Matrix (Fin n) (Fin n) ℝ) - c • Qrow A)⁻¹ i₀ j
        = ((1 : Matrix (Fin n) (Fin n) ℝ) - c • Qrow A)⁻¹ i₀ j := by
      rw [← Finset.sum_mul, Qrow_row_sum A hA hpos i₀, one_mul]
    have hdelta : (0 : ℝ) ≤ if i₀ = j then 1 else 0 := by
      by_cases h : i₀ = j <;> simp [h]
    nlinarith [heq, hge, hsum, hdelta]
  exact le_trans key (hmin i (Finset.mem_univ i))

theorem walk_inv_diag {n : ℕ} (A : Matrix (Fin n) (Fin n) ℝ) (hA : A.IsSymm)
    (hpos : ∀ i j, 0 ≤ A i j) {c : ℝ} (hc0 : 0 ≤ c) (hc1 : c < 1) (j : Fin n) :
    1 ≤ ((1 : Matrix (Fin n) (Fin n) ℝ) - c • Qrow A)⁻¹ j j := by
  have heq := walk_inv_eqn A hA hpos hc0 hc1 j j
  rw [if_pos rfl] at heq
  have hsum : 0 ≤ ∑ k, Qrow A j k * ((1 : Matrix (Fin n) (Fin n) ℝ) - c • Qrow A)⁻¹ k j :=
    Finset.sum_nonneg fun k _ =>
      mul_nonneg (Qrow_nonneg A hpos j k) (walk_inv_nonneg A hA hpos hc0 hc1 k j)
  nlinarith [mul_nonneg hc0 hsum]

/-! ## Conjugating the walk matrix back to `T_sym` -/

theorem sqrtDiag_mul_invsqrt {n : ℕ} (A : Matrix (Fin n) (Fin n) ℝ)
    (hpos : ∀ i j, 0 ≤ A i j) : sqrtDiag A * D_loop_invsqrt A = 1 := by
  unfold sqrtDiag D_loop_invsqrt
  rw [Matrix.diagonal_mul_diagonal]
  have h : (fun i => Real.sqrt (D_loop_vec A i) * D_loop_vec_invsqrt A i)
      = fun _ => (1 : ℝ) := by
    funext i
    have hs : Real.sqrt (D_loop_vec A i) ≠ 0 :=
      ne_of_gt (Real.sqrt_pos.mpr (D_loop_pos A hpos i))
    show Real.sqrt (D_loop_vec A i) * (1 / Real.sqrt (D_loop_vec A i)) = 1
    field_simp
  rw [h, Matrix.diagonal_one]

theorem invsqrt_mul_sqrtDiag {n : ℕ} (A : Matrix (Fin n) (Fin n) ℝ)
    (hpos : ∀ i j, 0 ≤ A i j) : D_loop_invsqrt A * sqrtDiag A = 1 := by
  unfold sqrtDiag D_loop_invsqrt
  rw [Matrix.diagonal_mul_diagonal]
  have h : (fun i => D_loop_vec_invsqrt A i * Real.sqrt (D_loop_vec A i))
      = fun _ => (1 : ℝ) := by
    funext i
    have hs : Real.sqrt (D_loop_vec A i) ≠ 0 :=
      ne_of_gt (Real.sqrt_pos.mpr (D_loop_pos A hpos i))
    show 1 / Real.sqrt (D_loop_vec A i) * Real.sqrt (D_loop_vec A i) = 1
    field_simp
  rw [h, Matrix.diagonal_one]

theorem T_sym_factor {n : ℕ} (A : Matrix (Fin n) (Fin n) ℝ)
    (hpos : ∀ i j, 0 ≤ A i j) :
    T_sym A = sqrtDiag A * Qrow A * D_loop_invsqrt A := by
  ext i j
  have hrhs : (sqrtDiag A * Qrow A * D_loop_invsqrt A) i j
      = Real.sqrt (D_loop_vec A i) * Qrow A i j * D_loop_vec_invsqrt A j := by
    unfold sqrtDiag D_loop_invsqrt
    rw [Matrix.mul_diagonal, Matrix.diagonal_mul]
  rw [T_sym_apply, hrhs, Qrow_apply]
  have hd := D_loop_pos A hpos i
  have hs : Real.sqrt (D_loop_vec A i) ≠ 0 := ne_of_gt (Real.sqrt_pos.mpr hd)
  have hsq : Real.sqrt (D_loop_vec A i) * Real.sqrt (D_loop_vec A i) = D_loop_vec A i :=
    Real.mul_self_sqrt (le_of_lt hd)
  have key : (D_loop_vec_invsqrt A i : ℝ)
      = Real.sqrt (D_loop_vec A i) / D_loop_vec A i := by
    show 1 / Real.sqrt (D_loop_vec A i) = Real.sqrt (D_loop_vec A i) / D_loop_vec A i
    rw [eq_div_iff (ne_of_gt hd), one_div, inv_mul_eq_div, div_eq_iff hs, hsq]
  rw [key]
  ring

theorem one_sub_T_factor {n : ℕ} (A : Matrix (Fin n) (Fin n) ℝ)
    (hpos : ∀ i j, 0 ≤ A i j) (c : ℝ) :
    sqrtDiag A * ((1 : Matrix (Fin n) (Fin n) ℝ) - c • Qrow A) * D_loop_invsqrt A
      = (1 : Matrix (Fin n) (Fin n) ℝ) - c • T_sym A := by
  calc sqrtDiag A * ((1 : Matrix (Fin n) (Fin n) ℝ) - c • Qrow A) * D_loop_invsqrt A
      = sqrtDiag A * D_loop_invsqrt A
        - c • (sqrtDiag A * Qrow A * D_loop_invsqrt A) := by
        rw [Matrix.mul_sub, Matrix.mul_one, Matrix.mul_smul, Matrix.sub_mul,
          Matrix.smul_mul]
    _ = (1 : Matrix (Fin n) (Fin n) ℝ) - c • T_sym A := by
        rw [sqrtDiag_mul_invsqrt A hpos, T_sym_factor A hpos]

theorem one_sub_T_inv {n : ℕ} (A : Matrix (Fin n) (Fin n) ℝ) (hA : A.IsSymm)
    (hpos : ∀ i j, 0 ≤ A i j) {c : ℝ} (hc0 : 0 ≤ c) (hc1 : c < 1) :
    ((1 : Matrix (Fin n) (Fin n) ℝ) - c • T_sym A)⁻¹
      = sqrtDiag A * ((1 : Matrix (Fin n) (Fin n) ℝ) - c • Qrow A)⁻¹
          * D_loop_invsqrt A := by
  apply Matrix.inv_eq_right_inv
  rw [← one_sub_T_factor A hpos c]
  have hmulBQ : ((1 : Matrix (Fin n) (Fin n) ℝ) - c • Qrow A)
      * ((1 : Matrix (Fin n) (Fin n) ℝ) - c • Qrow A)⁻¹ = 1 :=
    Matrix.mul_nonsing_inv _ (isUnit_iff_ne_zero.mpr (walk_det_ne_zero A hA hpos hc0 hc1))
  have hEE : D_loop_invsqrt A * (sqrtDiag A
        * (((1 : Matrix (Fin n) (Fin n) ℝ) - c • Qrow A)⁻¹ * D_loop_invsqrt A))
      = ((1 : Matrix (Fin n) (Fin n) ℝ) - c • Qrow A)⁻¹ * D_loop_invsqrt A := by
    rw [← Matrix.mul_assoc, invsqrt_mul_sqrtDiag A hpos, Matrix.one_mul]
  simp only [Matrix.mul_assoc]
  rw [hEE, ← Matrix.mul_assoc ((1 : Matrix (Fin n) (Fin n) ℝ) - c • Qrow A), hmulBQ,
    Matrix.one_mul, sqrtDiag_mul_invsqrt A hpos]

/-- C9: for every symmetric, non-negative adjacency matrix and every
`alpha` in `(0,1]`, each diagonal entry of the PPR diffusion matrix
`S = alpha * (I - (1-alpha) * T)⁻¹` is at least `alpha`; consequently when
`eps ≤ alpha` no column of `S_tilde` is entirely zero. -/
theorem ppr_diag_ge_alpha {n : ℕ} (A : Matrix (Fin n) (Fin n) ℝ) (alpha eps : ℝ)
    (hA : A.IsSymm) (hpos : ∀ i j, 0 ≤ A i j) (h0 : 0 < alpha) (h1 : alpha ≤ 1) :
    (∀ i, alpha ≤ S_mat A alpha i i) ∧
      (eps ≤ alpha → ∀ j, ∃ i, S_tilde A alpha eps i j ≠ 0) := by
  have hc0 : (0 : ℝ) ≤ 1 - alpha := by linarith
  have hc1 : 1 - alpha < 1 := by linarith
  have hdiag : ∀ i, alpha ≤ S_mat A alpha i i := by
    intro i
    have hentry : ((1 : Matrix (Fin n) (Fin n) ℝ) - (1 - alpha) • T_sym A)⁻¹ i i
        = ((1 : Matrix (Fin n) (Fin n) ℝ) - (1 - alpha) • Qrow A)⁻¹ i i := by
      rw [one_sub_T_inv A hA hpos hc0 hc1]
      show (sqrtDiag A * ((1 : Matrix (Fin n) (Fin n) ℝ) - (1 - alpha) • Qrow A)⁻¹
          * D_loop_invsqrt A) i i = _
      unfold sqrtDiag D_loop_invsqrt
      rw [Matrix.mul_diagonal, Matrix.diagonal_mul]
      have hs : Real.sqrt (D_loop_vec A i) ≠ 0 :=
        ne_of_gt (Real.sqrt_pos.mpr (D_loop_pos A hpos i))
      show Real.sqrt (D_loop_vec A i)
          * ((1 : Matrix (Fin n) (Fin n) ℝ) - (1 - alpha) • Qrow A)⁻¹ i i
          * (1 / Real.sqrt (D_loop_vec A i)) = _
      rw [mul_one_div, mul_comm (Real.sqrt (D_loop_vec A i)), mul_div_assoc,
        div_self hs, mul_one]
    calc alpha = alpha * 1 := (mul_one alpha).symm
      _ ≤ alpha * (((1 : Matrix (Fin n) (Fin n) ℝ) - (1 - alpha) • Qrow A)⁻¹ i i) :=
          mul_le_mul_of_nonneg_left (walk_inv_diag A hA hpos hc0 hc1 i) (le_of_lt h0)
      _ = S_mat A alpha i i := by
          show _ = (alpha • ((1 : Matrix (Fin n) (Fin n) ℝ)
            - (1 - alpha) • T_sym A)⁻¹) i i
          rw [Matrix.smul_apply, smul_eq_mul, hentry]
  refine ⟨hdiag, fun heps j => ⟨j, ?_⟩⟩
  have hSj : alpha ≤ S_mat A alpha j j := hdiag j
  have hkeep : S_tilde A alpha eps j j = S_mat A alpha j j := by
    rw [S_tilde_apply, if_pos (le_trans heps hSj)]
  rw [hkeep]
  exact ne_of_gt (lt_of_lt_of_le h0 hSj)

/-- Witness for C9 at `Ac`, `alpha = 1/2`, `eps = 1/2`. -/
theorem ppr_diag_ge_alpha_witness :
    Ac.IsSymm ∧ (∀ i j, (0 : ℝ) ≤ Ac i j) ∧ (0 < (1/2 : ℝ)) ∧ ((1/2 : ℝ) ≤ 1) ∧
      ((∀ i, (1/2 : ℝ) ≤ S_mat Ac (1/2) i i) ∧
        ((1/2 : ℝ) ≤ 1/2 → ∀ j, ∃ i, S_tilde Ac (1/2) (1/2) i j ≠ 0)) := by
  have hpos : ∀ i j, (0 : ℝ) ≤ Ac i j := by
    intro i j
    fin_cases i <;> fin_cases j <;> norm_num [Ac]
  exact ⟨Ac_isSymm, hpos, by norm_num, by norm_num,
    ppr_diag_ge_alpha Ac (1/2) (1/2) Ac_isSymm hpos (by norm_num) (by norm_num)⟩

end GDC
